import Mathlib

/-!
Verification development for the data-engineering pipeline: a shallow
embedding of `src/processing/data_cleaner.py` and
`src/processing/data_annotator.py`.  Strings are modelled as Lean
`String`s operating on their underlying `List Char`.  Python's
Unicode-aware character classes (`\w`, `\s`, `str.lower`, `str.title`)
are modelled on their ASCII fragment, which covers every literal that
occurs in the repository.
-/

namespace Pipeline

/-- Python whitespace (`\s`, `str.strip`), ASCII fragment. -/
def pySpace (c : Char) : Bool :=
  c = ' ' || c = '\t' || c = '\n' || c = '\r' || c = '\x0b' || c = '\x0c'

/-- Python word character (`\w`), ASCII fragment: letters, digits, underscore. -/
def wordChar (c : Char) : Bool := c.isAlphanum || c = '_'

/-- Characters kept by the `clean_text` filter `[^\w\s\.\,\!\?\-\(\)\/]`. -/
def allowedChar (c : Char) : Bool :=
  wordChar c || pySpace c || c = '.' || c = ',' || c = '!' || c = '?' ||
    c = '-' || c = '(' || c = ')' || c = '/'

/-- Python `str.lstrip()` on character lists. -/
def lstrip (l : List Char) : List Char := l.dropWhile pySpace

/-- Python `str.rstrip()` on character lists. -/
def rstrip (l : List Char) : List Char := (l.reverse.dropWhile pySpace).reverse

/-- Python `str.strip()` on character lists. -/
def stripEnds (l : List Char) : List Char := rstrip (lstrip l)

/-- Python `html.unescape`, first step of `clean_text`.  Models the named
entities `&amp;`, `&lt;`, `&gt;`, `&quot;`; the stdlib's full entity table
is not reproduced — a character reference always begins with `&`, which is
the only structural fact the development relies on. -/
def htmlUnescape : List Char → List Char
  | [] => []
  | c :: rest =>
    if c = '&' then
      match rest with
      | 'a' :: 'm' :: 'p' :: ';' :: r => '&' :: htmlUnescape r
      | 'l' :: 't' :: ';' :: r => '<' :: htmlUnescape r
      | 'g' :: 't' :: ';' :: r => '>' :: htmlUnescape r
      | 'q' :: 'u' :: 'o' :: 't' :: ';' :: r => '"' :: htmlUnescape r
      | 'a' :: 'm' :: 'p' :: r => '&' :: htmlUnescape r
      | 'l' :: 't' :: r => '<' :: htmlUnescape r
      | 'g' :: 't' :: r => '>' :: htmlUnescape r
      | 'q' :: 'u' :: 'o' :: 't' :: r => '"' :: htmlUnescape r
      | r => '&' :: htmlUnescape r
    else c :: htmlUnescape rest

/-- Scanner for the second step of `clean_text`, the substitution
`re.sub(r'<[^>]+>', ' ', text)`.  The state `none` means "outside a
tag"; `some buf` means a `<` has been read and `buf` holds the pending
characters in reverse order.  A `<...>` block with at least one interior
character becomes a single space; a bare `<>` and an unclosed `<...` are
kept literally, exactly as the regex (which requires `[^>]+` before the
closing `>`) leaves them unmatched. -/
def stripTagsAux : Option (List Char) → List Char → List Char
  | none, [] => []
  | some buf, [] => buf.reverse
  | none, c :: rest =>
    if c = '<' then stripTagsAux (some [c]) rest
    else c :: stripTagsAux none rest
  | some buf, c :: rest =>
    if c = '>' then
      if 2 ≤ buf.length then ' ' :: stripTagsAux none rest
      else '<' :: '>' :: stripTagsAux none rest
    else stripTagsAux (some (c :: buf)) rest

/-- Second step of `clean_text`: `re.sub(r'<[^>]+>', ' ', text)`. -/
def stripTags (l : List Char) : List Char := stripTagsAux none l

/-- Scanner for the third step of `clean_text`, the substitution
`re.sub(r'\s+', ' ', text)`.  The flag records whether the previous
character belonged to a whitespace run that has already been emitted as
one space. -/
def collapseWsAux : Bool → List Char → List Char
  | _, [] => []
  | true, c :: rest =>
    if pySpace c then collapseWsAux true rest
    else c :: collapseWsAux false rest
  | false, c :: rest =>
    if pySpace c then ' ' :: collapseWsAux true rest
    else c :: collapseWsAux false rest

/-- Third step of `clean_text`: `re.sub(r'\s+', ' ', text)`. -/
def collapseWs (l : List Char) : List Char := collapseWsAux false l

/-- Body of `DataCleaner.clean_text` on character lists: decode entities,
strip tags, collapse whitespace runs, drop disallowed characters, trim. -/
def cleanTextL (l : List Char) : List Char :=
  stripEnds ((collapseWs (stripTags (htmlUnescape l))).filter allowedChar)

/-- `DataCleaner.clean_text`.  `none` models an absent or non-string value
(the `not text or not isinstance(text, str)` guard). -/
def clean_text : Option String → String
  | none => ""
  | some s => if s = "" then "" else ⟨cleanTextL s.data⟩

example : clean_text (some "a # b") = "a  b" := by decide
example : clean_text (some "<b>Hi</b> &amp; bye") = "Hi  bye" := by decide
example : clean_text (some "  lots   of
 space  ") = "lots of space" := by decide

/-! Properties of the `clean_text` stages, used to settle the idempotence
claim. -/

/-- All whitespace characters of the list are plain spaces. -/
def WsOnly (l : List Char) : Prop := ∀ c ∈ l, pySpace c = true → c = ' '

/-- Every character of the list survives the `clean_text` filter. -/
def AllAllowed (l : List Char) : Prop := ∀ c ∈ l, allowedChar c = true

/-- No two adjacent characters are both whitespace. -/
def NoWsRun (l : List Char) : Prop :=
  List.Chain' (fun a b => ¬(pySpace a = true ∧ pySpace b = true)) l

set_option maxHeartbeats 2000000 in
theorem htmlUnescape_cons_ne (c : Char) (r : List Char) (hc : c ≠ '&') :
    htmlUnescape (c :: r) = c :: htmlUnescape r := by
  rw [htmlUnescape.eq_def]
  simp only [if_neg hc]

theorem htmlUnescape_eq_self (l : List Char) (h : ∀ c ∈ l, c ≠ '&') :
    htmlUnescape l = l := by
  induction l with
  | nil => rfl
  | cons c r ih =>
    rw [htmlUnescape_cons_ne c r (h c (List.mem_cons_self c r))]
    rw [ih (fun d hd => h d (List.mem_cons_of_mem c hd))]

theorem stripTags_eq_self (l : List Char) (h : ∀ c ∈ l, c ≠ '<') :
    stripTags l = l := by
  unfold stripTags
  induction l with
  | nil => rfl
  | cons c r ih =>
    have hc : c ≠ '<' := h c (List.mem_cons_self c r)
    simp only [stripTagsAux, if_neg hc]
    rw [ih (fun d hd => h d (List.mem_cons_of_mem c hd))]

theorem collapseWsAux_mem (b : Bool) (l : List Char) (d : Char)
    (hd : d ∈ collapseWsAux b l) : d = ' ' ∨ d ∈ l := by
  induction l generalizing b with
  | nil => cases b <;> simp [collapseWsAux] at hd
  | cons c r ih =>
    by_cases hc : pySpace c = true
    · cases b with
      | true =>
        simp only [collapseWsAux, if_pos hc] at hd
        rcases ih true hd with h | h
        · exact Or.inl h
        · exact Or.inr (List.mem_cons_of_mem c h)
      | false =>
        simp only [collapseWsAux, if_pos hc] at hd
        rcases List.mem_cons.mp hd with h | h
        · exact Or.inl h
        · rcases ih true h with h2 | h2
          · exact Or.inl h2
          · exact Or.inr (List.mem_cons_of_mem c h2)
    · cases b with
      | true =>
        simp only [collapseWsAux, if_neg hc] at hd
        rcases List.mem_cons.mp hd with h | h
        · exact Or.inr (h ▸ List.mem_cons_self c r)
        · rcases ih false h with h2 | h2
          · exact Or.inl h2
          · exact Or.inr (List.mem_cons_of_mem c h2)
      | false =>
        simp only [collapseWsAux, if_neg hc] at hd
        rcases List.mem_cons.mp hd with h | h
        · exact Or.inr (h ▸ List.mem_cons_self c r)
        · rcases ih false h with h2 | h2
          · exact Or.inl h2
          · exact Or.inr (List.mem_cons_of_mem c h2)

theorem collapseWsAux_wsOnly (b : Bool) (l : List Char) :
    WsOnly (collapseWsAux b l) := by
  unfold WsOnly
  induction l generalizing b with
  | nil => intro d hd; cases b <;> simp [collapseWsAux] at hd
  | cons c r ih =>
    intro d hd hws
    by_cases hc : pySpace c = true
    · cases b with
      | true =>
        simp only [collapseWsAux, if_pos hc] at hd
        exact ih true d hd hws
      | false =>
        simp only [collapseWsAux, if_pos hc] at hd
        rcases List.mem_cons.mp hd with h | h
        · exact h
        · exact ih true d h hws
    · cases b with
      | true =>
        simp only [collapseWsAux, if_neg hc] at hd
        rcases List.mem_cons.mp hd with h | h
        · exact absurd (h ▸ hws) (by simp [hc])
        · exact ih false d h hws
      | false =>
        simp only [collapseWsAux, if_neg hc] at hd
        rcases List.mem_cons.mp hd with h | h
        · exact absurd (h ▸ hws) (by simp [hc])
        · exact ih false d h hws

theorem collapseWsAux_true_head (l : List Char) (d : Char)
    (hd : (collapseWsAux true l).head? = some d) : pySpace d = false := by
  induction l with
  | nil => simp [collapseWsAux] at hd
  | cons c r ih =>
    by_cases hc : pySpace c = true
    · simp only [collapseWsAux, if_pos hc] at hd
      exact ih hd
    · simp only [collapseWsAux, if_neg hc, List.head?_cons,
        Option.some.injEq] at hd
      rw [← hd]
      exact Bool.eq_false_iff.mpr hc

theorem collapseWsAux_noWsRun (b : Bool) (l : List Char) :
    NoWsRun (collapseWsAux b l) := by
  induction l generalizing b with
  | nil => cases b <;> simp [collapseWsAux, NoWsRun]
  | cons c r ih =>
    by_cases hc : pySpace c = true
    · cases b with
      | true => simpa only [collapseWsAux, if_pos hc] using ih true
      | false =>
        simp only [collapseWsAux, if_pos hc]
        refine List.chain'_cons'.mpr ⟨?_, ih true⟩
        intro d hd
        have := collapseWsAux_true_head r d hd
        simp [this]
    · cases b with
      | true =>
        simp only [collapseWsAux, if_neg hc]
        refine List.chain'_cons'.mpr ⟨?_, ih false⟩
        intro d _
        simp [hc]
      | false =>
        simp only [collapseWsAux, if_neg hc]
        refine List.chain'_cons'.mpr ⟨?_, ih false⟩
        intro d _
        simp [hc]

theorem collapseWsAux_true_eq_false (l : List Char)
    (h : ∀ d, l.head? = some d → pySpace d = false) :
    collapseWsAux true l = collapseWsAux false l := by
  cases l with
  | nil => rfl
  | cons c r =>
    have hc : pySpace c = false := h c rfl
    simp [collapseWsAux, hc]

theorem collapseWs_eq_self (l : List Char) (hws : WsOnly l) (hrun : NoWsRun l) :
    collapseWs l = l := by
  unfold collapseWs
  induction l with
  | nil => rfl
  | cons c r ih =>
    by_cases hc : pySpace c = true
    · have hcsp : c = ' ' := hws c (List.mem_cons_self c r) hc
      simp only [collapseWsAux, if_pos hc]
      have hhead : ∀ d, r.head? = some d → pySpace d = false := by
        intro d hd
        have := (List.chain'_cons'.mp hrun).1 d hd
        by_contra hcon
        exact this ⟨hc, Bool.not_eq_false (pySpace d) |>.mp hcon⟩
      rw [collapseWsAux_true_eq_false r hhead]
      rw [ih (fun d hd hw => hws d (List.mem_cons_of_mem c hd) hw)
        (List.chain'_cons'.mp hrun).2]
      rw [hcsp]
    · simp only [collapseWsAux, if_neg hc]
      rw [ih (fun d hd hw => hws d (List.mem_cons_of_mem c hd) hw)
        (List.chain'_cons'.mp hrun).2]

theorem dropWhile_head_not (p : Char → Bool) (l : List Char) (d : Char)
    (hd : (l.dropWhile p).head? = some d) : p d = false := by
  induction l with
  | nil => simp [List.dropWhile] at hd
  | cons c r ih =>
    by_cases hc : p c = true
    · rw [List.dropWhile_cons, if_pos hc] at hd
      exact ih hd
    · rw [List.dropWhile_cons, if_neg hc] at hd
      simp only [List.head?_cons, Option.some.injEq] at hd
      rw [← hd]
      exact Bool.eq_false_iff.mpr hc

theorem dropWhile_eq_self_of_head (p : Char → Bool) (l : List Char)
    (h : ∀ d, l.head? = some d → p d = false) : l.dropWhile p = l := by
  cases l with
  | nil => rfl
  | cons c r => rw [List.dropWhile_cons, if_neg (by simp [h c rfl])]

theorem exists_append_dropWhile (p : Char → Bool) (l : List Char) :
    ∃ t, l = t ++ l.dropWhile p := by
  induction l with
  | nil => exact ⟨[], rfl⟩
  | cons c r ih =>
    by_cases hc : p c = true
    · obtain ⟨t, ht⟩ := ih
      exact ⟨c :: t, by rw [List.dropWhile_cons, if_pos hc, List.cons_append, ← ht]⟩
    · exact ⟨[], by rw [List.dropWhile_cons, if_neg hc, List.nil_append]⟩

theorem mem_of_mem_dropWhile (p : Char → Bool) (l : List Char) (d : Char)
    (hd : d ∈ l.dropWhile p) : d ∈ l := by
  obtain ⟨t, ht⟩ := exists_append_dropWhile p l
  rw [ht]
  exact List.mem_append_right t hd

theorem chain'_of_append_right {R : Char → Char → Prop} (l₁ l₂ : List Char)
    (h : List.Chain' R (l₁ ++ l₂)) : List.Chain' R l₂ := by
  induction l₁ with
  | nil => exact h
  | cons c r ih =>
    rw [List.cons_append] at h
    exact ih h.tail

theorem mem_of_mem_stripEnds (l : List Char) (d : Char)
    (hd : d ∈ stripEnds l) : d ∈ l := by
  unfold stripEnds rstrip lstrip at hd
  rw [List.mem_reverse] at hd
  have h1 := mem_of_mem_dropWhile _ _ _ hd
  rw [List.mem_reverse] at h1
  exact mem_of_mem_dropWhile _ _ _ h1

theorem rstrip_head_of_ne_nil (l : List Char) (d : Char)
    (hd : (rstrip l).head? = some d) : l.head? = some d := by
  obtain ⟨t, ht⟩ := exists_append_dropWhile pySpace l.reverse
  have hl : l = (l.reverse.dropWhile pySpace).reverse ++ t.reverse := by
    have := congrArg List.reverse ht
    rw [List.reverse_reverse, List.reverse_append] at this
    exact this
  unfold rstrip at hd
  cases hrev : (l.reverse.dropWhile pySpace).reverse with
  | nil => rw [hrev] at hd; simp at hd
  | cons x xs =>
    rw [hrev] at hd
    simp only [List.head?_cons, Option.some.injEq] at hd
    rw [hl, hrev, List.cons_append, List.head?_cons, hd]

theorem stripEnds_head_not (l : List Char) (d : Char)
    (hd : (stripEnds l).head? = some d) : pySpace d = false := by
  unfold stripEnds at hd
  have h1 := rstrip_head_of_ne_nil (lstrip l) d hd
  exact dropWhile_head_not pySpace l d h1

theorem stripEnds_last_not (l : List Char) (d : Char)
    (hd : (stripEnds l).getLast? = some d) : pySpace d = false := by
  unfold stripEnds rstrip at hd
  rw [List.getLast?_reverse] at hd
  exact dropWhile_head_not pySpace (lstrip l).reverse d hd

theorem stripEnds_eq_self (l : List Char)
    (h1 : ∀ d, l.head? = some d → pySpace d = false)
    (h2 : ∀ d, l.getLast? = some d → pySpace d = false) :
    stripEnds l = l := by
  unfold stripEnds rstrip lstrip
  rw [dropWhile_eq_self_of_head pySpace l h1]
  rw [dropWhile_eq_self_of_head pySpace l.reverse
    (fun d hd => h2 d (by rwa [List.head?_reverse] at hd))]
  exact List.reverse_reverse l

theorem noWsRun_reverse (m : List Char) (h : NoWsRun m) : NoWsRun m.reverse := by
  unfold NoWsRun at h ⊢
  rw [List.chain'_reverse]
  exact h.imp (fun a b hab => by intro hx; exact hab ⟨hx.2, hx.1⟩)

theorem noWsRun_dropWhile (m : List Char) (h : NoWsRun m) :
    NoWsRun (m.dropWhile pySpace) := by
  obtain ⟨t, ht⟩ := exists_append_dropWhile pySpace m
  exact chain'_of_append_right t _ (ht ▸ h)

theorem noWsRun_stripEnds (l : List Char) (h : NoWsRun l) :
    NoWsRun (stripEnds l) := by
  unfold stripEnds rstrip lstrip
  exact noWsRun_reverse _ (noWsRun_dropWhile _ (noWsRun_reverse _
    (noWsRun_dropWhile _ h)))

theorem wsOnly_stripEnds (l : List Char) (h : WsOnly l) : WsOnly (stripEnds l) :=
  fun d hd hws => h d (mem_of_mem_stripEnds l d hd) hws

theorem allAllowed_cleanTextL (l : List Char) : AllAllowed (cleanTextL l) := by
  intro d hd
  have h1 := mem_of_mem_stripEnds _ d hd
  exact (List.mem_filter.mp h1).2

theorem wsOnly_cleanTextL (l : List Char) : WsOnly (cleanTextL l) := by
  intro d hd hws
  have h1 := mem_of_mem_stripEnds _ d hd
  have h2 := (List.mem_filter.mp h1).1
  exact collapseWsAux_wsOnly false _ d h2 hws

theorem cleanTextL_of_clean (m : List Char) (hA : AllAllowed m) :
    cleanTextL m = stripEnds (collapseWs m) := by
  unfold cleanTextL
  rw [htmlUnescape_eq_self m (fun c hc heq => by
    have := hA c hc; rw [heq] at this; exact absurd this (by decide))]
  rw [stripTags_eq_self m (fun c hc heq => by
    have := hA c hc; rw [heq] at this; exact absurd this (by decide))]
  rw [List.filter_eq_self.mpr (fun d hd => by
    rcases collapseWsAux_mem false m d hd with h | h
    · rw [h]; decide
    · exact hA d h)]

theorem cleanTextL_fix (l : List Char) :
    cleanTextL (cleanTextL (cleanTextL l)) = cleanTextL (cleanTextL l) := by
  have hA : AllAllowed (cleanTextL l) := allAllowed_cleanTextL l
  have h2 : cleanTextL (cleanTextL l) = stripEnds (collapseWs (cleanTextL l)) :=
    cleanTextL_of_clean _ hA
  have hXA : AllAllowed (cleanTextL (cleanTextL l)) := allAllowed_cleanTextL _
  have hXW : WsOnly (cleanTextL (cleanTextL l)) := wsOnly_cleanTextL _
  have hXrun : NoWsRun (cleanTextL (cleanTextL l)) := by
    rw [h2]
    exact noWsRun_stripEnds _ (collapseWsAux_noWsRun false _)
  rw [cleanTextL_of_clean _ hXA]
  rw [collapseWs_eq_self _ hXW hXrun]
  rw [h2]
  exact stripEnds_eq_self _
    (fun d hd => stripEnds_head_not _ d hd)
    (fun d hd => stripEnds_last_not _ d hd)

theorem clean_text_some (s : String) : clean_text (some s) = ⟨cleanTextL s.data⟩ := by
  by_cases h : s = ""
  · subst h; decide
  · simp only [clean_text, if_neg h]

/-- Claim C1, counterexample: `clean_text` is not idempotent.  On the input
`"a # b"` the character filter deletes the `#` standing between two spaces
and leaves the double space `"a  b"`; a second application collapses it to
`"a b"`. -/
theorem claimC1_counterexample :
    ¬(clean_text (some (clean_text (some "a # b"))) = clean_text (some "a # b")) := by
  decide

/-- Claim C1 (amended): applying `clean_text` twice reaches a fixpoint — a
second application may still collapse whitespace runs created by the
character-removal step, but from then on `clean_text` changes nothing:
`clean_text (clean_text (clean_text x)) = clean_text (clean_text x)` for
every string `x`. -/
theorem claimC1_amended (x : String) :
    clean_text (some (clean_text (some (clean_text (some x))))) =
      clean_text (some (clean_text (some x))) := by
  have h1 : ∀ l : List Char, clean_text (some (⟨l⟩ : String)) = ⟨cleanTextL l⟩ :=
    fun l => clean_text_some ⟨l⟩
  rw [clean_text_some x, h1, h1]
  exact congrArg String.mk (cleanTextL_fix x.data)

/-! String utilities shared by the normalizers and the annotator. -/

/-- Python `str.lower()` (ASCII fragment). -/
def lowerL (l : List Char) : List Char := l.map Char.toLower

/-- Scanner for Python `str.title()` (ASCII fragment): a letter that
follows a letter is lowercased, any other letter is uppercased; the flag
records whether the previous character was a letter (Python: a cased
character). -/
def pyTitleAux : Bool → List Char → List Char
  | _, [] => []
  | true, c :: rest =>
    (if c.isAlpha then c.toLower else c) :: pyTitleAux c.isAlpha rest
  | false, c :: rest =>
    (if c.isAlpha then c.toUpper else c) :: pyTitleAux c.isAlpha rest

/-- Python `str.title()` (ASCII fragment). -/
def pyTitle (l : List Char) : List Char := pyTitleAux false l

/-- Python's substring test `needle in haystack`. -/
def containsSub (needle : List Char) : List Char → Bool
  | [] => needle.isEmpty
  | c :: cs => needle.isPrefixOf (c :: cs) || containsSub needle cs

/-- Python `str.strip()` on strings. -/
def pyStrip (s : String) : String := ⟨stripEnds s.data⟩

/-- Python `s.lower().strip()`, the key normalization of `remove_duplicates`. -/
def lowerStrip (s : String) : String := ⟨stripEnds (lowerL s.data)⟩

/-- Scanner for `re.sub(r'\b<pat>\b', rep, text)` with a fixed literal
pattern that starts and ends with a word character (`Sr`, `Jr`, `Mgr`).
`prevW` records whether the previous character of the original text is a
word character (`\b` before the match requires it not to be); the boundary
after the match requires the next character to be a non-word character or
the end.  The fuel argument only bounds the recursion; each step consumes
at least one character, so `l.length` steps always suffice. -/
def subWordAux (pat rep : List Char) : Nat → Bool → List Char → List Char
  | 0, _, l => l
  | _ + 1, _, [] => []
  | fuel + 1, prevW, c :: cs =>
    if !prevW && pat.isPrefixOf (c :: cs) &&
        (match (c :: cs).drop pat.length with
         | [] => true
         | d :: _ => !wordChar d) then
      rep ++ subWordAux pat rep fuel true ((c :: cs).drop pat.length)
    else c :: subWordAux pat rep fuel (wordChar c) cs

/-- Whole-word substitution `re.sub(r'\b<pat>\b', rep, text)` used for the
`Sr` / `Jr` / `Mgr` expansions of `normalize_job_title`. -/
def subWord (pat rep l : List Char) : List Char :=
  subWordAux pat rep l.length false l

/-- The alternatives of the legal-suffix regex of `normalize_company_name`,
lowercased, in Python's alternation order. -/
def legalAlts : List (List Char) :=
  ["inc".data, "ltd".data, "llc".data, "corp".data, "corporation".data,
    "company".data, "co".data]

/-- Try to match one alternative of the legal-suffix regex at the head of
`l`: case-insensitive literal, `\b` after it, then an optional `.`.
Returns `(consumed - 1, lastIsWord)` where `consumed` counts the matched
characters and `lastIsWord` tells whether the last matched character is a
word character (false exactly when the optional dot was consumed). -/
def tryAlt (alt : List Char) (l : List Char) : Option (Nat × Bool) :=
  if lowerL (l.take alt.length) = alt then
    match l.drop alt.length with
    | [] => some (alt.length - 1, true)
    | d :: _ =>
      if wordChar d then none
      else if d = '.' then some (alt.length, false)
      else some (alt.length - 1, true)
  else none

/-- Try the alternatives in Python's leftmost alternation order (`Inc`,
`Ltd`, `LLC`, `Corp`, `Corporation`, `Company`, `Co`): the first
alternative whose literal matches and whose trailing `\b` holds wins. -/
def tryAlts : List (List Char) → List Char → Option (Nat × Bool)
  | [], _ => none
  | a :: rest, l =>
    match tryAlt a l with
    | some r => some r
    | none => tryAlts rest l

/-- Scanner for the legal-entity-suffix deletion
`re.sub(r'\b(Inc|Ltd|LLC|Corp|Corporation|Company|Co)\b\.?', '', company,
flags=re.IGNORECASE)`.  A match is attempted only at a word boundary
(previous character not a word character); fuel as in `subWordAux`. -/
def subLegalAux : Nat → Bool → List Char → List Char
  | 0, _, l => l
  | _ + 1, _, [] => []
  | fuel + 1, prevW, c :: cs =>
    if !prevW then
      match tryAlts legalAlts (c :: cs) with
      | some (n, w) => subLegalAux fuel w ((c :: cs).drop (n + 1))
      | none => c :: subLegalAux fuel (wordChar c) cs
    else c :: subLegalAux fuel (wordChar c) cs

/-- The legal-entity-suffix deletion of `normalize_company_name`. -/
def subLegal (l : List Char) : List Char := subLegalAux l.length false l

/-- `DataCleaner.normalize_job_title`: clean, title-case, expand the
whole-word abbreviations `Sr` / `Jr` / `Mgr`, trim; empty input or an
empty result maps to the sentinel `"Unknown Position"`. -/
def normalize_job_title : Option String → String
  | none => "Unknown Position"
  | some t =>
    if t = "" then "Unknown Position"
    else
      let e3 := subWord "Mgr".data "Manager".data
        (subWord "Jr".data "Junior".data
          (subWord "Sr".data "Senior".data (pyTitle (cleanTextL t.data))))
      if stripEnds e3 = [] then "Unknown Position" else ⟨stripEnds e3⟩

/-- `DataCleaner.normalize_company_name`: clean, delete legal-entity
suffixes, title-case, trim; empty input or an empty result maps to the
sentinel `"Unknown Company"`. -/
def normalize_company_name : Option String → String
  | none => "Unknown Company"
  | some t =>
    if t = "" then "Unknown Company"
    else
      let tc := stripEnds (pyTitle (subLegal (cleanTextL t.data)))
      if tc = [] then "Unknown Company" else ⟨tc⟩

example : normalize_company_name (some "Google Inc.") = "Google" := by decide
example : normalize_company_name (some "###") = "Unknown Company" := by decide
example : normalize_job_title (some "sr. software engineer") =
    "Senior. Software Engineer" := by decide
example : normalize_job_title (some "dev mgr") = "Dev Manager" := by decide

/-! The record model.  A raw record is a JSON object whose fields may be
absent (or null / non-string, both modelled by `none`); a cleaned record
has all its fields present. -/

structure RawEntry where
  source : Option String
  title : Option String
  company : Option String
  description : Option String
  type : Option String
  score : Option Int
deriving DecidableEq

structure CleanedEntry where
  source : String
  title : String
  company : String
  description : String
  type : String
  score : Int
deriving DecidableEq

/-- The deduplication key of `remove_duplicates`:
`f"{item.get('title', '').lower().strip()}_{item.get('company', '').lower().strip()}"`. -/
def dedupKey (e : CleanedEntry) : String :=
  lowerStrip e.title ++ "_" ++ lowerStrip e.company

/-- The loop of `DataCleaner.remove_duplicates`, with the `seen` set
modelled as the list of keys added so far. -/
def removeDupAux : List String → List CleanedEntry → List CleanedEntry
  | _, [] => []
  | seen, x :: xs =>
    if dedupKey x ∈ seen then removeDupAux seen xs
    else x :: removeDupAux (dedupKey x :: seen) xs

/-- `DataCleaner.remove_duplicates`. -/
def remove_duplicates (l : List CleanedEntry) : List CleanedEntry :=
  removeDupAux [] l

/-- `DataCleaner.validate_entry`: the title must be non-empty after
trimming and the trimmed description must have at least 10 characters.
(The code also reads the company field but never uses it.) -/
def validate_entry (e : CleanedEntry) : Bool :=
  if pyStrip e.title = "" then false
  else if (pyStrip e.description).length < 10 then false
  else true

/-- The per-entry normalization of `DataCleaner.clean_data`: each field is
cleaned with its safe default (`entry.get('title', '')` passes `''` for an
absent title, and `normalize_job_title` maps `''` and `None` to the same
sentinel, so passing the optional field through directly is equivalent). -/
def cleanEntry (e : RawEntry) : CleanedEntry :=
  { source := pyStrip (e.source.getD "Unknown")
    title := normalize_job_title e.title
    company := normalize_company_name e.company
    description := clean_text e.description
    type := pyStrip (e.type.getD "job")
    score := e.score.getD 0 }

/-- Stage 1 of the pipeline (`DataCleaner.clean_data`, minus file I/O):
normalize every entry, keep the valid ones, then deduplicate. -/
def clean_data (raw : List RawEntry) : List CleanedEntry :=
  remove_duplicates ((raw.map cleanEntry).filter (fun e => validate_entry e))

/-! The annotator (`src/processing/data_annotator.py`). -/

/-- The `skill_keywords` table of `DataAnnotator.__init__`, in insertion
order. -/
def skill_keywords : List (String × List String) :=
  [("Python", ["python", "django", "flask", "fastapi", "pandas", "numpy"]),
   ("JavaScript", ["javascript", "js", "node", "react", "vue", "angular", "express"]),
   ("Java", ["java", "spring", "hibernate", "maven", "gradle"]),
   ("DevOps", ["docker", "kubernetes", "aws", "azure", "gcp", "terraform", "jenkins"]),
   ("Database", ["sql", "mysql", "postgresql", "mongodb", "redis", "elasticsearch"]),
   ("Machine Learning", ["ml", "ai", "tensorflow", "pytorch", "sklearn", "data science"]),
   ("Cloud", ["aws", "azure", "gcp", "cloud", "serverless", "lambda"]),
   ("Frontend", ["html", "css", "react", "vue", "angular", "typescript"]),
   ("Backend", ["api", "rest", "graphql", "microservices", "database"]),
   ("Mobile", ["ios", "android", "react native", "flutter", "swift", "kotlin"])]

/-- The `experience_keywords` table of `DataAnnotator.__init__`, in
insertion order. -/
def experience_keywords : List (String × List String) :=
  [("Entry Level", ["entry", "junior", "graduate", "intern", "0-2 years", "beginner", "new grad"]),
   ("Mid Level", ["mid", "intermediate", "2-5 years", "3-5 years", "experienced"]),
   ("Senior Level", ["senior", "sr", "lead", "5+ years", "6+ years", "expert", "principal"]),
   ("Management", ["manager", "mgr", "director", "vp", "head of", "team lead", "tech lead"])]

/-- The `content_types` table of `DataAnnotator.__init__`, in insertion
order. -/
def content_types : List (String × List String) :=
  [("Job Description", ["hiring", "position", "role", "opportunity", "apply", "requirements"]),
   ("Interview Question", ["interview", "question", "how to", "explain", "what is", "why"]),
   ("Career Advice", ["career", "advice", "tips", "how to become", "path", "guidance"]),
   ("Technical Discussion", ["discussion", "best practices", "comparison", "vs", "opinion"]),
   ("Company Info", ["company", "culture", "benefits", "team", "about us", "mission"])]

/-- Scan a category table in insertion order and return the first category
one of whose trigger keywords occurs in the lowercased text. -/
def firstKeywordMatch : List (String × List String) → List Char → Option String
  | [], _ => none
  | (cat, kws) :: rest, tl =>
    if kws.any (fun k => containsSub k.data tl) then some cat
    else firstKeywordMatch rest tl

/-- `DataAnnotator.extract_skills`: every category with a trigger-keyword
hit, each category at most once.  (Python returns `list(set(found))`,
whose iteration order is interpreter-defined; the found categories are
pairwise distinct already, so only the order is a modelling choice.) -/
def extract_skills : Option String → List String
  | none => []
  | some t =>
    if t = "" then []
    else
      (skill_keywords.filterMap (fun p =>
        if p.2.any (fun k => containsSub k.data (lowerL t.data)) then some p.1
        else none)).dedup

/-- Python `int()` on a non-empty digit string. -/
def digitsVal (ds : List Char) : Nat :=
  ds.foldl (fun a c => 10 * a + (c.toNat - 48)) 0

/-- The separator class `[\+\-\s]` of the year regex. -/
def yearSep (c : Char) : Bool := c = '+' || c = '-' || pySpace c

/-- Scanner for `re.findall(r'(\d+)[\+\-\s]*years?', text_lower)`:
leftmost non-overlapping matches; a candidate match takes a maximal digit
run, then a run of `+`/`-`/whitespace, then the literal `year` and an
optional `s`.  On failure the scan resumes after the digit run (no
position inside the run or the separator run can start a match).  Fuel as
in `subWordAux`. -/
def findallYearsAux : Nat → List Char → List Nat
  | 0, _ => []
  | _ + 1, [] => []
  | fuel + 1, c :: cs =>
    if c.isDigit then
      let ds := c :: cs.takeWhile Char.isDigit
      let r1 := cs.dropWhile Char.isDigit
      match r1.dropWhile yearSep with
      | 'y' :: 'e' :: 'a' :: 'r' :: r3 =>
        digitsVal ds ::
          findallYearsAux fuel (match r3 with | 's' :: t => t | t => t)
      | _ => findallYearsAux fuel r1
    else findallYearsAux fuel cs

/-- The year-pattern extraction of `classify_experience_level`. -/
def findallYears (l : List Char) : List Nat := findallYearsAux l.length l

/-- Python `max` over a non-empty list (`0` on the empty list, unused). -/
def maxList : List Nat → Nat
  | [] => 0
  | n :: rest => rest.foldl max n

/-- `DataAnnotator.classify_experience_level`: first keyword category in
table order, else the maximum of the year patterns mapped through the
2/5 thresholds, else `"Not Specified"`. -/
def classify_experience_level : Option String → String
  | none => "Not Specified"
  | some t =>
    if t = "" then "Not Specified"
    else
      match firstKeywordMatch experience_keywords (lowerL t.data) with
      | some cat => cat
      | none =>
        match findallYears (lowerL t.data) with
        | [] => "Not Specified"
        | ms =>
          if maxList ms ≤ 2 then "Entry Level"
          else if maxList ms ≤ 5 then "Mid Level"
          else "Senior Level"

/-- `DataAnnotator.classify_content_type`: the source-based checks, then
the content-type table, then the apply/position/hiring fallback, then the
question-mark check, then the default. -/
def classify_content_type (title description source : String) : String :=
  let combined := lowerL (title.data ++ ' ' :: description.data)
  let fallback :=
    match firstKeywordMatch content_types combined with
    | some c => c
    | none =>
      if ["apply", "position", "hiring"].any (fun w => containsSub w.data combined) then
        "Job Description"
      else if title.data.contains '?' then "Interview Question"
      else "Technical Discussion"
  if source = "StackOverflow" then "Interview Question"
  else if source = "Reddit" then
    if ["advice", "help", "career"].any (fun w => containsSub w.data combined) then
      "Career Advice"
    else fallback
  else fallback

/-- The `tech_keywords` list of `calculate_relevance_score`. -/
def tech_keywords : List String :=
  ["software", "developer", "engineer", "programming", "code", "development",
   "python", "java", "javascript", "react", "node", "api", "database",
   "cloud", "aws", "docker", "git", "algorithm", "data structure"]

/-- Number of technology keywords occurring in the lowercased text
(`sum(1 for keyword in tech_keywords if keyword in text_lower)`). -/
def countTech (t : String) : Nat :=
  (tech_keywords.filter (fun k => containsSub k.data (lowerL t.data))).length

/-- Python's binary `min` on rationals (returns the first argument on
ties, like Python). -/
def pyMin (a b : ℚ) : ℚ := if a ≤ b then a else b

theorem pyMin_eq_min (a b : ℚ) : pyMin a b = min a b := by
  unfold pyMin
  exact (min_def a b).symm

/-- `DataAnnotator.calculate_relevance_score`.  Python's float arithmetic
is modelled by exact rationals: every quantity involved is a small
rational and the claims concern order and bounds, which the rounding of
binary floats does not disturb. -/
def calculate_relevance_score : Option String → ℚ
  | none => 0
  | some t =>
    if t = "" then 0
    else
      pyMin (pyMin ((countTech t : ℚ) / 10) 1 + pyMin ((t.length : ℚ) / 1000) 0.2) 1

example : classify_experience_level (some "5+ years of experience required") =
    "Senior Level" := by decide
example : classify_experience_level (some "We need someone with 3 years experience") =
    "Mid Level" := by decide
example : extract_skills (some "We use Python and AWS for our backend API") =
    ["Python", "DevOps", "Cloud", "Backend"] := by decide
example : findallYears (lowerL "12  x3year 7-  years".data) = [3, 7] := by decide

/-! Properties of `remove_duplicates`. -/

theorem stringMk_eq_iff (l m : List Char) : (⟨l⟩ : String) = ⟨m⟩ ↔ l = m :=
  ⟨fun h => by injection h, fun h => by rw [h]⟩

theorem removeDupAux_sublist (seen : List String) (l : List CleanedEntry) :
    (removeDupAux seen l).Sublist l := by
  induction l generalizing seen with
  | nil => simp [removeDupAux]
  | cons x xs ih =>
    by_cases h : dedupKey x ∈ seen
    · simp only [removeDupAux, if_pos h]
      exact (ih seen).cons x
    · simp only [removeDupAux, if_neg h]
      exact (ih _).cons₂ x

theorem removeDupAux_not_seen (seen : List String) (l : List CleanedEntry)
    (y : CleanedEntry) (hy : y ∈ removeDupAux seen l) : dedupKey y ∉ seen := by
  induction l generalizing seen with
  | nil => simp [removeDupAux] at hy
  | cons x xs ih =>
    by_cases h : dedupKey x ∈ seen
    · simp only [removeDupAux, if_pos h] at hy
      exact ih seen hy
    · simp only [removeDupAux, if_neg h] at hy
      rcases List.mem_cons.mp hy with h2 | h2
      · rw [h2]; exact h
      · have h3 := ih _ h2
        exact fun hmem => h3 (List.mem_cons_of_mem _ hmem)

theorem removeDupAux_pairwise (seen : List String) (l : List CleanedEntry) :
    (removeDupAux seen l).Pairwise (fun a b => dedupKey a ≠ dedupKey b) := by
  induction l generalizing seen with
  | nil => simp [removeDupAux]
  | cons x xs ih =>
    by_cases h : dedupKey x ∈ seen
    · simpa only [removeDupAux, if_pos h] using ih seen
    · simp only [removeDupAux, if_neg h]
      refine List.Pairwise.cons ?_ (ih _)
      intro y hy
      have h2 := removeDupAux_not_seen _ _ y hy
      exact fun he => h2 (he ▸ List.mem_cons_self _ _)

theorem removeDupAux_find (seen : List String) (l : List CleanedEntry)
    (x : CleanedEntry) (hx : dedupKey x ∉ seen) :
    (removeDupAux seen l).find? (fun y => dedupKey y == dedupKey x) =
      l.find? (fun y => dedupKey y == dedupKey x) := by
  induction l generalizing seen with
  | nil => rfl
  | cons z zs ih =>
    by_cases hz : dedupKey z ∈ seen
    · have hne : ¬(dedupKey z == dedupKey x) = true := by
        simp only [beq_iff_eq]
        exact fun he => hx (he ▸ hz)
      simp only [removeDupAux, if_pos hz]
      rw [List.find?_cons_of_neg zs hne]
      exact ih seen hx
    · by_cases he : dedupKey z = dedupKey x
      · have hp : (dedupKey z == dedupKey x) = true := beq_iff_eq.mpr he
        simp only [removeDupAux, if_neg hz]
        rw [List.find?_cons_of_pos (removeDupAux (dedupKey z :: seen) zs) hp,
          List.find?_cons_of_pos zs hp]
      · have hne : ¬(dedupKey z == dedupKey x) = true := by
          simp only [beq_iff_eq]; exact he
        simp only [removeDupAux, if_neg hz]
        rw [List.find?_cons_of_neg (removeDupAux (dedupKey z :: seen) zs) hne,
          List.find?_cons_of_neg zs hne]
        refine ih _ (fun hmem => ?_)
        rcases List.mem_cons.mp hmem with h2 | h2
        · exact he h2.symm
        · exact hx h2

/-- Claim C3, counterexample: `remove_duplicates` does not keep the first
occurrence of every distinct lowercased, trimmed `(title, company)` pair.
The key is the underscore-joined concatenation of the two fields, and `_`
survives in field values, so the record `(title "x", company "y_z")` —
the first occurrence of its pair — is dropped after the record
`(title "x_y", company "z")`, whose pair is different. -/
theorem claimC3_counterexample :
    remove_duplicates
        [{ source := "", title := "x_y", company := "z", description := "",
           type := "", score := 0 },
         { source := "", title := "x", company := "y_z", description := "",
           type := "", score := 0 }] =
      [{ source := "", title := "x_y", company := "z", description := "",
         type := "", score := 0 }] ∧
    ¬(lowerStrip "x" = lowerStrip "x_y" ∧ lowerStrip "y_z" = lowerStrip "z") := by
  decide

/-- Claim C3 (amended): `remove_duplicates` returns an order-preserving
subsequence of its input; its records have pairwise distinct composite
keys (lowercased trimmed title and company joined by `_`); for every key,
the record retained is the first input record with that key; and on the
three-record example of the claim it keeps the original `"A"/"X"` entry
and drops its case-variant. -/
theorem claimC3_amended :
    (∀ l : List CleanedEntry, (remove_duplicates l).Sublist l) ∧
    (∀ l : List CleanedEntry,
      (remove_duplicates l).Pairwise (fun a b => dedupKey a ≠ dedupKey b)) ∧
    (∀ (l : List CleanedEntry) (x : CleanedEntry),
      (remove_duplicates l).find? (fun y => dedupKey y == dedupKey x) =
        l.find? (fun y => dedupKey y == dedupKey x)) ∧
    remove_duplicates
        [{ source := "", title := "A", company := "X", description := "",
           type := "", score := 0 },
         { source := "", title := "a", company := "x", description := "",
           type := "", score := 0 },
         { source := "", title := "B", company := "Y", description := "",
           type := "", score := 0 }] =
      [{ source := "", title := "A", company := "X", description := "",
         type := "", score := 0 },
       { source := "", title := "B", company := "Y", description := "",
         type := "", score := 0 }] := by
  refine ⟨fun l => removeDupAux_sublist [] l,
    fun l => removeDupAux_pairwise [] l,
    fun l x => removeDupAux_find [] l x (List.not_mem_nil _),
    by decide⟩

/-- Claim C10: the deduplication key conflates distinct `(title, company)`
pairs.  `_` is a word character, so `clean_text` keeps it; the records
`(title "a_b", company "c")` and `(title "a", company "b_c")` have
different pairs but the same underscore-joined key, and
`remove_duplicates` drops the second. -/
theorem claimC10 :
    clean_text (some "a_b") = "a_b" ∧ wordChar '_' = true ∧
    dedupKey { source := "", title := "a_b", company := "c",
               description := "", type := "", score := 0 } =
      dedupKey { source := "", title := "a", company := "b_c",
                 description := "", type := "", score := 0 } ∧
    ¬(("a_b" : String) = "a" ∧ ("c" : String) = "b_c") ∧
    remove_duplicates
        [{ source := "", title := "a_b", company := "c", description := "",
           type := "", score := 0 },
         { source := "", title := "a", company := "b_c", description := "",
           type := "", score := 0 }] =
      [{ source := "", title := "a_b", company := "c", description := "",
         type := "", score := 0 }] := by
  decide

/-- Claim C7: `validate_entry` returns `false` exactly when the trimmed
title is empty or the trimmed description has fewer than 10 characters,
and its result never depends on the company field. -/
theorem claimC7 (e : CleanedEntry) :
    (validate_entry e = false ↔
      (pyStrip e.title = "" ∨ (pyStrip e.description).length < 10)) ∧
    (∀ c : String, validate_entry { e with company := c } = validate_entry e) := by
  constructor
  · by_cases h1 : pyStrip e.title = ""
    · simp [validate_entry, h1]
    · by_cases h2 : (pyStrip e.description).length < 10
      · simp [validate_entry, h1, h2]
      · simp [validate_entry, h1, h2]
  · intro c
    rfl

/-- Claim C7 witness: a record with a one-character description is
rejected. -/
theorem claimC7_witness :
    validate_entry { source := "", title := "T", company := "",
                     description := "d", type := "", score := 0 } = false :=
  (claimC7 _).1.mpr (Or.inr (by decide))

/-! Stage-1 pipeline properties (claim C2). -/

theorem stripEnds_idem (l : List Char) : stripEnds (stripEnds l) = stripEnds l :=
  stripEnds_eq_self _ (fun d hd => stripEnds_head_not l d hd)
    (fun d hd => stripEnds_last_not l d hd)

theorem pyStrip_mk (l : List Char) : pyStrip ⟨l⟩ = ⟨stripEnds l⟩ := rfl

theorem pyStrip_clean_text (d : Option String) :
    pyStrip (clean_text d) = clean_text d := by
  cases d with
  | none => decide
  | some s =>
    rw [clean_text_some]
    unfold pyStrip
    refine congrArg String.mk ?_
    show stripEnds (cleanTextL s.data) = cleanTextL s.data
    unfold cleanTextL
    exact stripEnds_idem _

theorem normalize_job_title_strip (t : Option String) :
    pyStrip (normalize_job_title t) = normalize_job_title t ∧
      normalize_job_title t ≠ "" := by
  cases t with
  | none => exact ⟨by decide, by decide⟩
  | some s =>
    by_cases h : s = ""
    · subst h; exact ⟨by decide, by decide⟩
    · simp only [normalize_job_title, if_neg h]
      split
      · exact ⟨by decide, by decide⟩
      · rename_i h3
        refine ⟨?_, fun hcon => h3 ((stringMk_eq_iff _ []).mp hcon)⟩
        rw [pyStrip_mk]
        exact congrArg String.mk (stripEnds_idem _)

theorem validate_cleanEntry (r : RawEntry) :
    validate_entry (cleanEntry r) = false ↔
      (cleanEntry r).description.length < 10 := by
  have h1 : ¬pyStrip (cleanEntry r).title = "" := by
    show ¬pyStrip (normalize_job_title r.title) = ""
    rw [(normalize_job_title_strip r.title).1]
    exact (normalize_job_title_strip r.title).2
  have h2 : pyStrip (cleanEntry r).description = (cleanEntry r).description :=
    pyStrip_clean_text r.description
  simp only [validate_entry, if_neg h1, h2]
  by_cases h3 : (cleanEntry r).description.length < 10
  · simp [h3]
  · simp [h3]

/-- Claim C2: when two raw records normalize to the same (title, company)
pair and exactly one of the cleaned descriptions reaches the 10-character
threshold, stage 1 (normalize, then validate, then deduplicate) keeps
exactly the long-description record, whichever order the two records come
in: the short one is dropped by validation before deduplication runs. -/
theorem claimC2 (r1 r2 : RawEntry)
    (ht : (cleanEntry r1).title = (cleanEntry r2).title)
    (hc : (cleanEntry r1).company = (cleanEntry r2).company)
    (hshort : (cleanEntry r1).description.length < 10)
    (hlong : 10 ≤ (cleanEntry r2).description.length) :
    clean_data [r1, r2] = [cleanEntry r2] ∧
      clean_data [r2, r1] = [cleanEntry r2] := by
  have hv1 : validate_entry (cleanEntry r1) = false :=
    (validate_cleanEntry r1).mpr hshort
  have hv2 : validate_entry (cleanEntry r2) = true := by
    by_cases h : validate_entry (cleanEntry r2) = true
    · exact h
    · have h4 := (validate_cleanEntry r2).mp (Bool.not_eq_true _ ▸ Bool.of_not_eq_true h)
      omega
  constructor <;>
    simp [clean_data, List.filter_cons, hv1, hv2, remove_duplicates, removeDupAux]

/-- A raw record whose cleaned description is shorter than 10 characters
(title and company are absent, so both normalize to their sentinels). -/
def rawShort : RawEntry :=
  { source := none, title := none, company := none,
    description := some "short", type := none, score := none }

/-- A raw record with the same normalized (title, company) pair as
`rawShort` and a cleaned description of 18 characters. -/
def rawLong : RawEntry :=
  { source := none, title := none, company := none,
    description := some "a long description", type := none, score := none }

/-- Claim C2 witness: the two-record input keeps exactly the long one, in
either order. -/
theorem claimC2_witness :
    clean_data [rawShort, rawLong] = [cleanEntry rawLong] ∧
      clean_data [rawLong, rawShort] = [cleanEntry rawLong] :=
  claimC2 rawShort rawLong (by decide) (by decide) (by decide) (by decide)

/-! The experience-level classifier (claim C4). -/

/-- The classifier chain exactly as claim C4 words it: iterate the
experience-keyword table in order and take the first substring match;
otherwise extract every year pattern, take the maximum and map it through
the 2-year and 5-year thresholds; otherwise report `"Not Specified"`. -/
def expChainSpec : Option String → String
  | none => "Not Specified"
  | some s =>
    match firstKeywordMatch experience_keywords (lowerL s.data) with
    | some cat => cat
    | none =>
      match findallYears (lowerL s.data) with
      | [] => "Not Specified"
      | ms =>
        if maxList ms ≤ 2 then "Entry Level"
        else if maxList ms ≤ 5 then "Mid Level"
        else "Senior Level"

/-- Claim C4: `classify_experience_level` implements exactly the
first-keyword-match / max-year-fallback chain, and the two examples of
the claim evaluate as stated (the first via the `"5+ years"` Senior
keyword, the second via the numeric fallback). -/
theorem claimC4 :
    (∀ t : Option String, classify_experience_level t = expChainSpec t) ∧
    classify_experience_level (some "5+ years of experience required") =
      "Senior Level" ∧
    classify_experience_level (some "We need someone with 3 years experience") =
      "Mid Level" := by
  refine ⟨fun t => ?_, by decide, by decide⟩
  cases t with
  | none => rfl
  | some s =>
    by_cases h : s = ""
    · subst h; decide
    · simp only [classify_experience_level, expChainSpec, if_neg h]

/-! The content-type classifier (claim C5). -/

/-- The decision chain exactly as claim C5 words it: (a) the Q&A source
sentinel, (b) the forum source with advice/help/career, (c) the
content-type table in order, (d) the apply/position/hiring fallback,
(e) the question mark in the title, (f) the default. -/
def contentChainSpec (title description source : String) : String :=
  let combined := lowerL (title.data ++ ' ' :: description.data)
  if source = "StackOverflow" then "Interview Question"
  else if source = "Reddit" ∧
      (["advice", "help", "career"].any (fun w => containsSub w.data combined)) = true then
    "Career Advice"
  else
    match firstKeywordMatch content_types combined with
    | some c => c
    | none =>
      if (["apply", "position", "hiring"].any (fun w => containsSub w.data combined)) = true then
        "Job Description"
      else if title.data.contains '?' then "Interview Question"
      else "Technical Discussion"

/-- Claim C5: `classify_content_type` follows exactly the six-step ordered
fallback chain of the claim. -/
theorem claimC5 (title description source : String) :
    classify_content_type title description source =
      contentChainSpec title description source := by
  unfold classify_content_type contentChainSpec
  by_cases h1 : source = "StackOverflow"
  · simp [h1]
  · by_cases h2 : source = "Reddit"
    · by_cases h3 : (["advice", "help", "career"].any (fun w =>
          containsSub w.data (lowerL (title.data ++ ' ' :: description.data)))) = true
      · simp [h1, h2, h3]
      · simp [h1, h2, h3]
    · simp [h1, h2]

/-! The relevance scorer (claim C6). -/

/-- The score formula of claim C6 as a function of the keyword count and
the text length: `min(min(count / 10, 1) + min(length / 1000, 0.2), 1)`. -/
def scoreFormula (c L : ℕ) : ℚ :=
  pyMin (pyMin ((c : ℚ) / 10) 1 + pyMin ((L : ℚ) / 1000) 0.2) 1

/-- Claim C6: the relevance score equals the capped keyword/length
formula, lies in `[0, 1]` for every input, is monotone in the keyword
count at fixed length, and is exactly `0` for absent or empty text. -/
theorem claimC6 :
    (∀ t : String,
      calculate_relevance_score (some t) = scoreFormula (countTech t) t.length) ∧
    (∀ t : Option String,
      0 ≤ calculate_relevance_score t ∧ calculate_relevance_score t ≤ 1) ∧
    (∀ c1 c2 L : ℕ, c1 ≤ c2 → scoreFormula c1 L ≤ scoreFormula c2 L) ∧
    calculate_relevance_score none = 0 ∧
    calculate_relevance_score (some "") = 0 := by
  have hform : ∀ c L : ℕ,
      scoreFormula c L = min (min ((c : ℚ) / 10) 1 + min ((L : ℚ) / 1000) 0.2) 1 := by
    intro c L
    unfold scoreFormula
    rw [pyMin_eq_min, pyMin_eq_min, pyMin_eq_min]
  have hempty : calculate_relevance_score (some "") = 0 := by
    simp [calculate_relevance_score]
  have heq : ∀ t : String,
      calculate_relevance_score (some t) = scoreFormula (countTech t) t.length := by
    intro t
    by_cases h : t = ""
    · subst h
      rw [hempty, hform]
      have h1 : countTech "" = 0 := by decide
      have h2 : ("" : String).length = 0 := by decide
      rw [h1, h2]
      norm_num
    · simp only [calculate_relevance_score, if_neg h, scoreFormula]
  have hbound : ∀ c L : ℕ, 0 ≤ scoreFormula c L ∧ scoreFormula c L ≤ 1 := by
    intro c L
    rw [hform]
    constructor
    · have hb1 : (0 : ℚ) ≤ min ((c : ℚ) / 10) 1 := le_min (by positivity) (by norm_num)
      have hb2 : (0 : ℚ) ≤ min ((L : ℚ) / 1000) 0.2 := le_min (by positivity) (by norm_num)
      exact le_min (by linarith) (by norm_num)
    · exact min_le_right _ _
  refine ⟨heq, fun t => ?_, fun c1 c2 L h => ?_, rfl, hempty⟩
  · cases t with
    | none => constructor <;> norm_num [calculate_relevance_score]
    | some s => rw [heq s]; exact hbound _ _
  · rw [hform, hform]
    have hc : (c1 : ℚ) / 10 ≤ (c2 : ℚ) / 10 := by
      have : (c1 : ℚ) ≤ (c2 : ℚ) := by exact_mod_cast h
      linarith
    exact min_le_min (add_le_add (min_le_min hc le_rfl) le_rfl) le_rfl

/-- Claim C6 witness: monotonicity applied at keyword counts 3 and 5 and
length 100. -/
theorem claimC6_witness : scoreFormula 3 100 ≤ scoreFormula 5 100 :=
  claimC6.2.2.1 3 5 100 (by decide)

/-! The normalizer sentinels (claim C8). -/

/-- The non-sentinel value of `normalize_job_title` as claim C8 words it:
the cleaned, title-cased text with `Sr`, `Jr`, `Mgr` expanded, trimmed. -/
def titlePipe (s : String) : String :=
  ⟨stripEnds (subWord "Mgr".data "Manager".data (subWord "Jr".data "Junior".data
    (subWord "Sr".data "Senior".data (pyTitle (cleanTextL s.data)))))⟩

/-- The non-sentinel value of `normalize_company_name` as claim C8 words
it: the cleaned text with legal-entity suffixes removed, title-cased,
trimmed. -/
def companyPipe (s : String) : String :=
  ⟨stripEnds (pyTitle (subLegal (cleanTextL s.data)))⟩

theorem ite_empty_mk (L : List Char) (sent : String) :
    (if L = [] then sent else (⟨L⟩ : String)) =
      if (⟨L⟩ : String) = "" then sent else ⟨L⟩ := by
  by_cases h : L = []
  · subst h; rw [if_pos rfl, if_pos rfl]
  · rw [if_neg h, if_neg (fun hc => h ((stringMk_eq_iff L []).mp hc))]

/-- Claim C8: absent or empty input yields the sentinels
`"Unknown Position"` / `"Unknown Company"`, as does any input whose
normalization collapses to the empty string; every other input yields the
cleaned, title-cased value (with the legal-entity suffixes removed for
companies and `Sr`/`Jr`/`Mgr` expanded for titles). -/
theorem claimC8 :
    normalize_job_title none = "Unknown Position" ∧
    normalize_company_name none = "Unknown Company" ∧
    normalize_job_title (some "") = "Unknown Position" ∧
    normalize_company_name (some "") = "Unknown Company" ∧
    (∀ s : String, normalize_job_title (some s) =
      if titlePipe s = "" then "Unknown Position" else titlePipe s) ∧
    (∀ s : String, normalize_company_name (some s) =
      if companyPipe s = "" then "Unknown Company" else companyPipe s) := by
  refine ⟨rfl, rfl, by decide, by decide, fun s => ?_, fun s => ?_⟩
  · by_cases h : s = ""
    · subst h; decide
    · simp only [normalize_job_title, if_neg h, titlePipe]
      exact ite_empty_mk _ _
  · by_cases h : s = ""
    · subst h; decide
    · simp only [normalize_company_name, if_neg h, companyPipe]
      exact ite_empty_mk _ _

/-- Claim C9: every normalization and classification function is total
with an explicit fallback on empty or absent input: `clean_text` yields
the empty string, the normalizers yield their sentinels, `extract_skills`
yields the empty list, the experience classifier yields
`"Not Specified"`, and the relevance score is `0`. -/
theorem claimC9 :
    clean_text none = "" ∧ clean_text (some "") = "" ∧
    normalize_job_title none = "Unknown Position" ∧
    normalize_job_title (some "") = "Unknown Position" ∧
    normalize_company_name none = "Unknown Company" ∧
    normalize_company_name (some "") = "Unknown Company" ∧
    extract_skills none = [] ∧ extract_skills (some "") = [] ∧
    classify_experience_level none = "Not Specified" ∧
    classify_experience_level (some "") = "Not Specified" ∧
    calculate_relevance_score none = 0 ∧
    calculate_relevance_score (some "") = 0 := by
  refine ⟨rfl, by decide, rfl, by decide, rfl, by decide, rfl, by decide,
    rfl, by decide, rfl, ?_⟩
  simp [calculate_relevance_score]

end Pipeline
